import Mathlib

/-!
Verification of the graph transformation and dual-view rendering pipeline
of the customer behavior network frontend.

The development shallowly embeds:
* the Sankey flow adapter's graph sanitizer (`SankeyChart.sankeyData`,
  its BFS reachability check `hasPath` and greedy accept loop),
* the identity-coloring function present in both rendering adapters,
* the panel orchestrator's fetch/state logic (`CustomerNetworkPanel`),
* the flow adapter's animation-frame render scheduler.

JavaScript numbers that only ever hold 32-bit integers (the string hash)
are modelled as `Int` with explicit wrapping; edge/node weights are
modelled as `Int`.
-/

namespace SankeyChart

/-- Node record of the graph payload: `{ id, label, value }`. -/
structure GraphNode where
  id : String
  label : String
  value : Int
deriving DecidableEq, Repr

/-- Edge record of the graph payload: `{ source, target, value }`. -/
structure GraphLink where
  source : String
  target : String
  value : Int
deriving DecidableEq, Repr

/-- The adjacency accumulator `Map<string, Set<string>>` of the sanitizer,
modelled as an association list in insertion order; each value list holds
the (insertion-ordered, duplicate-free) neighbor set. -/
abbrev Adj := List (String × List String)

/-- Embedding of `adjacency.get(current)` followed by the no-neighbors treatment:
the neighbor set of `current`, empty when absent. -/
def getNeighbors (adj : Adj) (k : String) : List String :=
  match adj.find? (fun e => e.1 = k) with
  | some e => e.2
  | none => []

/-- Embedding of `if (!adjacency.has(source)) adjacency.set(source, new Set());
adjacency.get(source)!.add(target)`: insert `t` into the neighbor set of
`s`, creating the entry when missing (JS `Map`/`Set` keep insertion order
and ignore duplicate adds). -/
def addEdge (adj : Adj) (s t : String) : Adj :=
  match adj with
  | [] => [(s, [t])]
  | (k, ns) :: rest =>
    if k = s then (k, if t ∈ ns then ns else ns ++ [t]) :: rest
    else (k, ns) :: addEdge rest s t

/-- Fuel budget for the BFS worklist loop: one unit per adjacency entry
plus one per stored neighbor, plus one for the initial queue element.
The real loop terminates because every node enters `visited` at most
once; this counts the same bound explicitly. -/
def adjMeasure (adj : Adj) : Nat :=
  adj.foldr (fun e acc => 1 + e.2.length + acc) 0

/-- The body of `hasPath`'s `while (queue.length)` loop: pop `current`,
succeed on `goal`, skip visited nodes, otherwise mark visited and push
the unvisited neighbors.  `fuel` only makes the recursion structural; it
is chosen large enough that the loop never runs out (proved below). -/
def bfs (adj : Adj) (goal : String) : Nat → List String → List String → Bool
  | 0, _, _ => false
  | fuel + 1, queue, visited =>
    match queue with
    | [] => false
    | current :: rest =>
      if current = goal then true
      else if current ∈ visited then bfs adj goal fuel rest visited
      else
        bfs adj goal fuel
          (rest ++ (getNeighbors adj current).filter (fun n => ¬ n ∈ current :: visited))
          (current :: visited)

/-- Embedding of `hasPath(start, goal)`: `true` immediately when `start === goal`,
otherwise breadth-first search over the accepted adjacency from `start`
looking for `goal`. -/
def hasPath (adj : Adj) (start goal : String) : Bool :=
  if start = goal then true
  else bfs adj goal (1 + adjMeasure adj) [start] []

/-- The constant `MAX_LINKS = 200`, the default edge budget of the flow adapter. -/
def MAX_LINKS : Nat := 200

/-- One step of the stable sort: place `x` (an element originally earlier
than everything already sorted) before the first element whose value does
not exceed `x`'s, so ties keep original relative order. -/
def insertByValue (x : GraphLink) : List GraphLink → List GraphLink
  | [] => [x]
  | y :: ys => if y.value ≤ x.value then x :: y :: ys else y :: insertByValue x ys

/-- Embedding of `[...props.links].sort((a, b) => (b.value || 0) - (a.value || 0))`:
stable sort of the input edges by value descending (JS `Array.sort` is
stable; the comparator orders `a` before `b` exactly when
`a.value ≥ b.value`), embedded as a stable insertion sort. -/
def sortLinks (links : List GraphLink) : List GraphLink :=
  links.foldr insertByValue []

/-- The `.slice(0, MAX_LINKS)` step applied to the sorted edges: the candidate
list handed to the accept loop, parametrized by the budget. -/
def candidateLinks (links : List GraphLink) (maxLinks : Nat) : List GraphLink :=
  (sortLinks links).take maxLinks

/-- The `for (const link of sortedLinks)` accept loop: skip edges with a
falsy (empty) endpoint, skip self-loops, reject edges whose target
already reaches their source through the accepted adjacency, and accept
the rest, recording them in both the output list and the adjacency. -/
def acyclicLoop : List GraphLink → List GraphLink → Adj → List GraphLink × Adj
  | [], acc, adj => (acc, adj)
  | l :: rest, acc, adj =>
    if l.source = "" then acyclicLoop rest acc adj
    else if l.target = "" then acyclicLoop rest acc adj
    else if l.source = l.target then acyclicLoop rest acc adj
    else if hasPath adj l.target l.source then acyclicLoop rest acc adj
    else acyclicLoop rest (acc ++ [l]) (addEdge adj l.source l.target)

/-- Embedding of `sankeyData`, the graph sanitizer of the flow adapter: sort the edges
by value descending, truncate to the budget, run the greedy acyclic
accept loop, and keep exactly the input nodes incident to an accepted
edge.  The source fixes the budget to `MAX_LINKS`; it is a parameter
here so the spec's `sanitize(links, K)` can be stated for every `K`. -/
def sankeyData (nodes : List GraphNode) (links : List GraphLink) (maxLinks : Nat) :
    List GraphNode × List GraphLink :=
  let acyclicLinks := (acyclicLoop (candidateLinks links maxLinks) [] []).1
  let nodeIds := acyclicLinks.flatMap (fun l => [l.source, l.target])
  let filteredNodes := nodes.filter (fun node => nodeIds.contains node.id)
  (filteredNodes, acyclicLinks)

end SankeyChart

/-- JavaScript `| 0` (ToInt32): wrap an integer into `[-2^31, 2^31)`. -/
def toInt32 (n : Int) : Int := (n + 2 ^ 31) % 2 ^ 32 - 2 ^ 31

namespace SankeyChart

/-- One step of the `colorFromId` hash loop:
`hash = (hash << 5) - hash + id.charCodeAt(i); hash |= 0`.  The shift
result is itself a 32-bit value; the following subtraction and addition
are exact in doubles and wrapped by `|= 0`. -/
def hashStep (h : Int) (c : Nat) : Int :=
  toInt32 (toInt32 (h * 32) - h + c)

/-- Embedding of `colorFromId` of the flow (Sankey) adapter: hash the id's characters
(UTF-16 code units, which coincide with code points on the BMP strings
modelled here) into a hue in `0..359` at fixed saturation/lightness. -/
def colorFromId (id : String) : String :=
  let hash := id.data.foldl (fun h c => hashStep h c.toNat) 0
  let hue := hash.natAbs % 360
  "hsl(" ++ toString hue ++ ", 80%, 60%)"

/-- The three skip guards of the accept loop, as a predicate on edges:
both endpoints truthy (non-empty) and not a self-loop. -/
def linkOk (l : GraphLink) : Bool :=
  decide (l.source ≠ "" ∧ l.target ≠ "" ∧ l.source ≠ l.target)

/-- The cycle-checking stage of the accept loop alone (no endpoint or
self-loop guards): used to state exactly which candidate set the
sanitizer subjects to cycle checking. -/
def acceptLoop : List GraphLink → List GraphLink → Adj → List GraphLink
  | [], acc, _ => acc
  | l :: rest, acc, adj =>
    if hasPath adj l.target l.source then acceptLoop rest acc adj
    else acceptLoop rest (acc ++ [l]) (addEdge adj l.source l.target)

/-- The candidate set as the spec's steps 1–3 describe it: discard
self-loops and empty-endpoint edges FIRST, then stable-sort by value
descending, then truncate to the first `k` edges.  Stated from the
spec's words for comparison with the code's `candidateLinks`. -/
def specCandidateLinks (links : List GraphLink) (k : Nat) : List GraphLink :=
  (sortLinks (links.filter linkOk)).take k

/-- State of the flow adapter's render scheduling: `raf` is the stored
`requestAnimationFrame` handle, `pendingFrames` the browser's queue of
not-yet-fired frame callbacks (each one runs `render`), `nextFrameId`
the next fresh handle, `observing` whether the `ResizeObserver` is
connected.  `containerWidth` is the live `clientWidth` and
`renderedWidths` logs, per executed layout recomputation, the width it
used. -/
structure AdapterState where
  raf : Option Nat
  nextFrameId : Nat
  pendingFrames : List Nat
  observing : Bool
  containerWidth : Nat
  renderedWidths : List Nat
deriving DecidableEq, Repr

/-- Embedding of `scheduleRender`: `if (raf) cancelAnimationFrame(raf);
raf = requestAnimationFrame(render)` — cancel the pending request, if
any, and store a fresh one. -/
def scheduleRender (s : AdapterState) : AdapterState :=
  let s' := match s.raf with
    | some id => { s with pendingFrames := s.pendingFrames.erase id }
    | none => s
  { s' with
      pendingFrames := s'.pendingFrames ++ [s'.nextFrameId],
      raf := some s'.nextFrameId,
      nextFrameId := s'.nextFrameId + 1 }

/-- A `ResizeObserver` callback: the container now has width `width`,
and the observer calls `scheduleRender()`. -/
def resizeEvent (s : AdapterState) (width : Nat) : AdapterState :=
  scheduleRender { s with containerWidth := width }

/-- The next rendering tick: every pending frame callback fires (each
one is `render`, which reads the container's current width), and the
frame queue empties. -/
def animationTick (s : AdapterState) : AdapterState :=
  { s with
      pendingFrames := [],
      renderedWidths :=
        s.renderedWidths ++ s.pendingFrames.map (fun _ => s.containerWidth) }

/-- Embedding of `onBeforeUnmount`: `observer?.disconnect()` and
`if (raf) cancelAnimationFrame(raf)`. -/
def onBeforeUnmountEvent (s : AdapterState) : AdapterState :=
  let s' := { s with observing := false }
  match s'.raf with
  | some id => { s' with pendingFrames := s'.pendingFrames.erase id }
  | none => s'

/-- The scheduler's state invariant: any queued frame callback is the
one stored in `raf`, handles in the queue are stale-free (below the
next fresh id), and at most one frame is pending. -/
def SchedInv (s : AdapterState) : Prop :=
  (∀ id ∈ s.pendingFrames, s.raf = some id) ∧
  (∀ id ∈ s.pendingFrames, id < s.nextFrameId) ∧
  s.pendingFrames.length ≤ 1

end SankeyChart

namespace NetworkGraph

/-- Embedding of `colorFromId` of the spatial (3-D force) adapter: a textually
identical copy of the flow adapter's function, embedded from its own
source. -/
def colorFromId (id : String) : String :=
  let hash := id.data.foldl (fun h c => SankeyChart.hashStep h c.toNat) 0
  let hue := hash.natAbs % 360
  "hsl(" ++ toString hue ++ ", 80%, 60%)"

end NetworkGraph

namespace CustomerNetworkPanel

/-- A segment option of the segment list response. -/
structure SegmentOption where
  id : String
  label : String
  description : String
  default : Option Bool
deriving DecidableEq, Repr

/-- The `segment` object of the graph response. -/
structure SegmentInfo where
  id : String
  label : String
  description : String
deriving DecidableEq, Repr

/-- The `filters` object of the graph response. -/
structure Filters where
  start_date : String
  end_date : String
  limit : Int
  min_edge_count : Int
deriving DecidableEq, Repr

/-- The `summary` object of the graph response. -/
structure Summary where
  total_transitions : Int
  edge_count : Int
  node_count : Int
deriving DecidableEq, Repr

/-- The `data_source` object of the graph response. -/
structure DataSource where
  events_table : String
  orders_table : Option String
  users_table : Option String
deriving DecidableEq, Repr

/-- The graph payload (`GraphResponse`) stored in the `graph` ref. -/
structure GraphResponse where
  segment : SegmentInfo
  filters : Filters
  nodes : List SankeyChart.GraphNode
  links : List SankeyChart.GraphLink
  summary : Summary
  data_source : DataSource
deriving DecidableEq, Repr

/-- The two values of the `chartView` ref. -/
inductive ChartView
  | network
  | sankey
deriving DecidableEq, Repr

/-- A calendar date as the code reads it off a JS `Date`:
`getFullYear()`, zero-based `getMonth()`, `getDate()`. -/
structure DateParts where
  year : Nat
  month0 : Nat
  day : Nat
deriving DecidableEq, Repr

/-- Embedding of `padStart(2, '0')`. -/
def pad2 (s : String) : String :=
  String.mk (List.replicate (2 - s.length) (Char.ofNat 48)) ++ s

/-- Embedding of `toISO`: format a date as `YYYY-MM-DD` with zero-padded month
(one-based) and day. -/
def toISO (d : DateParts) : String :=
  toString d.year ++ "-" ++ pad2 (toString (d.month0 + 1)) ++ "-" ++ pad2 (toString d.day)

/-- The orchestrator's reactive state: one field per `ref` of the panel
component. -/
structure ViewState where
  segments : List SegmentOption
  selectedSegment : String
  dateRange : Option (DateParts × DateParts)
  limit : Int
  minEdge : Int
  loading : Bool
  chartView : ChartView
  error : Option String
  graph : Option GraphResponse
deriving DecidableEq, Repr

/-- The JSON body POSTed to `/api/network/customer-flow`; the two date
fields are present exactly when a date range is selected. -/
structure RequestPayload where
  segment : String
  limit : Int
  min_edge_count : Int
  start_date : Option String
  end_date : Option String
deriving DecidableEq, Repr

/-- Embedding of `hasGraph`: the computed guard for the non-empty chart area. -/
def hasGraph (s : ViewState) : Bool :=
  match s.graph with
  | none => false
  | some data => decide (0 < data.links.length)

/-- First half of `fetchGraph`, up to issuing the request: bail out when
no segment is selected, otherwise set `loading`, clear `error`, build
the payload and issue it (returned as the effect list). -/
def fetchGraphStart (s : ViewState) : ViewState × List RequestPayload :=
  if s.selectedSegment = "" then (s, [])
  else
    ({ s with loading := true, error := none },
     [{ segment := s.selectedSegment,
        limit := s.limit,
        min_edge_count := s.minEdge,
        start_date := s.dateRange.map (fun r => toISO r.1),
        end_date := s.dateRange.map (fun r => toISO r.2) }])

/-- The fallback user-facing message
(`'네트워크 정보를 가져오지 못했습니다.'`) used when the thrown error has a
falsy message. -/
def fetchErrorFallback : String := "네트워크 정보를 가져오지 못했습니다."

/-- Outcome of the `fetch` awaited by `fetchGraph`: a parsed body, or a
failure whose message is the non-2xx response text / network error
text. -/
inductive FetchOutcome
  | ok (body : GraphResponse)
  | fail (message : String)
deriving DecidableEq, Repr

/-- Second half of `fetchGraph`: on success store the body in `graph`;
on failure set `error` to the thrown message or the fallback; in both
cases (`finally`) clear `loading`. -/
def fetchGraphResolve (s : ViewState) (outcome : FetchOutcome) : ViewState :=
  match outcome with
  | .ok body => { s with graph := some body, loading := false }
  | .fail msg =>
      { s with
          error := some (if msg = "" then fetchErrorFallback else msg),
          loading := false }

/-- The view-toggle buttons' click handlers: a plain assignment
`chartView = 'network'` / `chartView = 'sankey'`, issuing no request. -/
def setChartView (s : ViewState) (v : ChartView) : ViewState × List RequestPayload :=
  ({ s with chartView := v }, [])

end CustomerNetworkPanel

namespace SankeyChart

/-- Step relation read off the adjacency accumulator: `b` is a recorded
neighbor of `a`. -/
def stepAdj (adj : Adj) (a b : String) : Prop := b ∈ getNeighbors adj a

/-- Step relation of an edge list: some edge goes from `a` to `b`. -/
def linkStep (links : List GraphLink) (a b : String) : Prop :=
  ∃ l ∈ links, l.source = a ∧ l.target = b

/-- A cycle-detection pass over an edge list finds nothing: no node
reaches itself through a non-empty directed path. -/
def Acyclic (links : List GraphLink) : Prop :=
  ∀ x, ¬ Relation.TransGen (linkStep links) x x

/-- Fuel still needed by the BFS loop: the part of the adjacency budget
not yet consumed by `visited`. -/
def remaining (adj : Adj) (visited : List String) : Nat :=
  adjMeasure (adj.filter (fun e => decide (¬ e.1 ∈ visited)))

end SankeyChart

namespace SankeyChart

theorem adjMeasure_cons (e : String × List String) (rest : Adj) :
    adjMeasure (e :: rest) = 1 + e.2.length + adjMeasure rest := rfl

theorem getNeighbors_cons (k : String) (ns : List String) (rest : Adj) (c : String) :
    getNeighbors ((k, ns) :: rest) c = if k = c then ns else getNeighbors rest c := by
  by_cases h : k = c <;> simp [getNeighbors, List.find?_cons, h]

theorem getNeighbors_nil (c : String) : getNeighbors [] c = [] := rfl

theorem remaining_nil_visited (adj : Adj) : remaining adj [] = adjMeasure adj := by
  simp [remaining]

theorem remaining_mono (adj : Adj) (c : String) (visited : List String) :
    remaining adj (c :: visited) ≤ remaining adj visited := by
  induction adj with
  | nil => exact Nat.le_refl _
  | cons e rest ih =>
      unfold remaining at ih ⊢
      by_cases hv : e.1 ∈ visited
      · rw [List.filter_cons_of_neg (by simp [hv]),
          List.filter_cons_of_neg (by simp [hv])]
        exact ih
      · by_cases hc : e.1 = c
        · rw [List.filter_cons_of_neg (by simp [hc]),
            List.filter_cons_of_pos (by simp [hv]), adjMeasure_cons]
          omega
        · rw [List.filter_cons_of_pos (by simp [hc, hv]),
            List.filter_cons_of_pos (by simp [hv]), adjMeasure_cons, adjMeasure_cons]
          omega

theorem remaining_visit (adj : Adj) (c : String) (visited : List String)
    (hc : ¬ c ∈ visited) :
    remaining adj (c :: visited) + (getNeighbors adj c).length ≤ remaining adj visited := by
  induction adj with
  | nil => simp [remaining, getNeighbors_nil, adjMeasure]
  | cons e rest ih =>
      obtain ⟨k, ns⟩ := e
      rw [getNeighbors_cons]
      unfold remaining at ih ⊢
      by_cases hk : k = c
      · subst hk
        rw [if_pos rfl, List.filter_cons_of_neg (by simp),
          List.filter_cons_of_pos (by simp [hc]), adjMeasure_cons]
        have hmono := remaining_mono rest k visited
        unfold remaining at hmono
        have hsnd : ((k, ns) : String × List String).2.length = ns.length := rfl
        omega
      · rw [if_neg hk]
        by_cases hv : k ∈ visited
        · rw [List.filter_cons_of_neg (by simp [hv]),
            List.filter_cons_of_neg (by simp [hv])]
          exact ih
        · rw [List.filter_cons_of_pos (by simp [hk, hv]),
            List.filter_cons_of_pos (by simp [hv]), adjMeasure_cons, adjMeasure_cons]
          omega

/-- If a visited node reaches the goal, some queue element does too:
neighbors of visited nodes are always visited-or-queued, and the goal is
never visited. -/
theorem bfs_escape {adj : Adj} {goal : String} {queue visited : List String}
    (closed : ∀ v ∈ visited, ∀ n, stepAdj adj v n → n ∈ visited ∨ n ∈ queue)
    (hg : ¬ goal ∈ visited) :
    ∀ u, u ∈ visited → Relation.ReflTransGen (stepAdj adj) u goal →
      ∃ w ∈ queue, Relation.ReflTransGen (stepAdj adj) w goal := by
  intro u hu hr
  revert hu
  induction hr using Relation.ReflTransGen.head_induction_on with
  | refl => intro hu; exact absurd hu hg
  | head hstep hrest ih =>
      intro hu
      rcases closed _ hu _ hstep with hv | hq
      · exact ih hv
      · exact ⟨_, hq, hrest⟩

/-- Completeness of the BFS worklist loop: with fuel covering the queue
plus the unvisited adjacency budget, a reachable goal is found. -/
theorem bfs_complete (adj : Adj) (goal : String) :
    ∀ (fuel : Nat) (queue visited : List String),
      queue.length + remaining adj visited ≤ fuel →
      (∀ v ∈ visited, ∀ n, stepAdj adj v n → n ∈ visited ∨ n ∈ queue) →
      ¬ goal ∈ visited →
      (∃ w ∈ queue, Relation.ReflTransGen (stepAdj adj) w goal) →
      bfs adj goal fuel queue visited = true := by
  intro fuel
  induction fuel with
  | zero =>
      intro queue visited hfuel _ _ hex
      obtain ⟨w, hw, _⟩ := hex
      have := List.length_pos.mpr (List.ne_nil_of_mem hw)
      omega
  | succ fuel ih =>
      intro queue visited hfuel closed hg hex
      obtain ⟨w, hw, hr⟩ := hex
      obtain ⟨current, rest, rfl⟩ :
          ∃ c r, queue = c :: r := by
        cases queue with
        | nil => cases hw
        | cons c r => exact ⟨c, r, rfl⟩
      by_cases hcg : current = goal
      · simp [bfs, hcg]
      · by_cases hcv : current ∈ visited
        · have closed' : ∀ v ∈ visited, ∀ n, stepAdj adj v n → n ∈ visited ∨ n ∈ rest := by
            intro v hv n hstep
            rcases closed v hv n hstep with h | h
            · exact Or.inl h
            · rcases List.mem_cons.mp h with rfl | h
              · exact Or.inl hcv
              · exact Or.inr h
          have hwit : ∃ w ∈ rest, Relation.ReflTransGen (stepAdj adj) w goal := by
            rcases List.mem_cons.mp hw with rfl | hwrest
            · exact bfs_escape closed' hg w hcv hr
            · exact ⟨w, hwrest, hr⟩
          have hfuel' : rest.length + remaining adj visited ≤ fuel := by
            simp [List.length_cons] at hfuel
            omega
          simp only [bfs]
          rw [if_neg hcg, if_pos hcv]
          exact ih rest visited hfuel' closed' hg hwit
        · simp only [bfs]
          rw [if_neg hcg, if_neg hcv]
          apply ih
          · have h1 :
                (rest ++ (getNeighbors adj current).filter
                  (fun n => ¬ n ∈ current :: visited)).length ≤
                  rest.length + (getNeighbors adj current).length := by
              rw [List.length_append]
              exact Nat.add_le_add_left (List.length_filter_le _ _) _
            have h2 := remaining_visit adj current visited hcv
            simp [List.length_cons] at hfuel
            omega
          · intro v hv n hstep
            have hstep' : n ∈ getNeighbors adj v := hstep
            rcases List.mem_cons.mp hv with rfl | hv
            · by_cases hn : n ∈ v :: visited
              · exact Or.inl hn
              · refine Or.inr (List.mem_append_right _ ?_)
                rw [List.mem_filter]
                exact ⟨hstep', decide_eq_true hn⟩
            · rcases closed v hv n hstep with h | h
              · exact Or.inl (List.mem_cons_of_mem _ h)
              · rcases List.mem_cons.mp h with rfl | h
                · exact Or.inl (List.mem_cons_self _ _)
                · exact Or.inr (List.mem_append_left _ h)
          · intro h
            rcases List.mem_cons.mp h with h | h
            · exact hcg h.symm
            · exact hg h
          · have closed' : ∀ v ∈ current :: visited, ∀ n, stepAdj adj v n →
                n ∈ current :: visited ∨
                n ∈ rest ++ (getNeighbors adj current).filter
                  (fun n => ¬ n ∈ current :: visited) := by
              intro v hv n hstep
              have hstep' : n ∈ getNeighbors adj v := hstep
              rcases List.mem_cons.mp hv with rfl | hv
              · by_cases hn : n ∈ v :: visited
                · exact Or.inl hn
                · refine Or.inr (List.mem_append_right _ ?_)
                  rw [List.mem_filter]
                  exact ⟨hstep', decide_eq_true hn⟩
              · rcases closed v hv n hstep with h | h
                · exact Or.inl (List.mem_cons_of_mem _ h)
                · rcases List.mem_cons.mp h with rfl | h
                  · exact Or.inl (List.mem_cons_self _ _)
                  · exact Or.inr (List.mem_append_left _ h)
            have hg' : ¬ goal ∈ current :: visited := by
              intro h
              rcases List.mem_cons.mp h with h | h
              · exact hcg h.symm
              · exact hg h
            rcases List.mem_cons.mp hw with rfl | hwrest
            · rcases (Relation.ReflTransGen.cases_head hr) with rfl | ⟨n, hstep, hrn⟩
              · exact absurd rfl hcg
              · have hstep' : n ∈ getNeighbors adj w := hstep
                by_cases hn : n ∈ w :: visited
                · exact bfs_escape closed' hg' n hn hrn
                · refine ⟨n, List.mem_append_right _ ?_, hrn⟩
                  rw [List.mem_filter]
                  exact ⟨hstep', decide_eq_true hn⟩
            · exact ⟨w, List.mem_append_left _ hwrest, hr⟩

/-- Completeness of `hasPath`: a goal reachable through the adjacency is
reported. -/
theorem hasPath_complete {adj : Adj} {a b : String}
    (h : Relation.ReflTransGen (stepAdj adj) a b) : hasPath adj a b = true := by
  unfold hasPath
  by_cases hab : a = b
  · simp [hab]
  · simp [hab]
    refine bfs_complete adj b (1 + adjMeasure adj) [a] [] ?_ ?_ ?_ ?_
    · simp [remaining_nil_visited]
    · intro v hv; cases hv
    · simp
    · exact ⟨a, by simp, h⟩

theorem getNeighbors_addEdge_self (adj : Adj) (s t : String) :
    t ∈ getNeighbors (addEdge adj s t) s := by
  induction adj with
  | nil => simp [addEdge, getNeighbors_cons]
  | cons e rest ih =>
      obtain ⟨k, ns⟩ := e
      by_cases hk : k = s
      · subst hk
        rw [addEdge, if_pos rfl, getNeighbors_cons, if_pos rfl]
        by_cases ht : t ∈ ns
        · simp [ht]
        · simp [ht]
      · rw [addEdge, if_neg hk, getNeighbors_cons, if_neg hk]
        exact ih

theorem getNeighbors_addEdge_mono (adj : Adj) (s t a n : String)
    (h : n ∈ getNeighbors adj a) : n ∈ getNeighbors (addEdge adj s t) a := by
  induction adj with
  | nil => simp [getNeighbors_nil] at h
  | cons e rest ih =>
      obtain ⟨k, ns⟩ := e
      rw [getNeighbors_cons] at h
      by_cases hk : k = s
      · subst hk
        rw [addEdge, if_pos rfl, getNeighbors_cons]
        by_cases ha : k = a
        · rw [if_pos ha]
          rw [if_pos ha] at h
          by_cases ht : t ∈ ns
          · simpa [ht] using h
          · simp [ht, List.mem_append]
            exact Or.inl h
        · rw [if_neg ha]
          rw [if_neg ha] at h
          exact h
      · rw [addEdge, if_neg hk, getNeighbors_cons]
        by_cases ha : k = a
        · rw [if_pos ha]
          rw [if_pos ha] at h
          exact h
        · rw [if_neg ha]
          rw [if_neg ha] at h
          exact ih h

theorem linkStep_append (acc : List GraphLink) (l : GraphLink) (a b : String) :
    linkStep (acc ++ [l]) a b ↔ linkStep acc a b ∨ (l.source = a ∧ l.target = b) := by
  constructor
  · rintro ⟨x, hx, hs, ht⟩
    rcases List.mem_append.mp hx with h | h
    · exact Or.inl ⟨x, h, hs, ht⟩
    · rcases List.mem_singleton.mp h with rfl
      exact Or.inr ⟨hs, ht⟩
  · rintro (⟨x, hx, hs, ht⟩ | ⟨hs, ht⟩)
    · exact ⟨x, List.mem_append_left _ hx, hs, ht⟩
    · exact ⟨l, List.mem_append_right _ (List.mem_singleton.mpr rfl), hs, ht⟩

/-- Decomposition of reflexive-transitive reachability after adding one
edge `u → v`: either the path avoids the new edge, or it runs through it
with an old-edge path to `u` first. -/
theorem rtg_split {r : String → String → Prop} {u v a b : String}
    (h : Relation.ReflTransGen (fun x y => r x y ∨ (x = u ∧ y = v)) a b) :
    Relation.ReflTransGen r a b ∨
      (Relation.ReflTransGen r a u ∧
        Relation.ReflTransGen (fun x y => r x y ∨ (x = u ∧ y = v)) v b) := by
  induction h with
  | refl => exact Or.inl Relation.ReflTransGen.refl
  | tail hab hbc ih =>
      rcases hbc with hstep | ⟨rfl, rfl⟩
      · rcases ih with h1 | ⟨h1, h2⟩
        · exact Or.inl (h1.tail hstep)
        · exact Or.inr ⟨h1, h2.tail (Or.inl hstep)⟩
      · rcases ih with h1 | ⟨h1, _⟩
        · exact Or.inr ⟨h1, Relation.ReflTransGen.refl⟩
        · exact Or.inr ⟨h1, Relation.ReflTransGen.refl⟩

/-- Accepting an edge whose target cannot reach its source through the
accepted set keeps the accepted set acyclic. -/
theorem acyclic_append {E : List GraphLink} {l : GraphLink}
    (hE : Acyclic E)
    (hno : ¬ Relation.ReflTransGen (linkStep E) l.target l.source) :
    Acyclic (E ++ [l]) := by
  intro x hx
  have hmp : ∀ a b, linkStep (E ++ [l]) a b →
      (fun x y => linkStep E x y ∨ (x = l.source ∧ y = l.target)) a b := by
    intro a b hab
    rcases (linkStep_append E l a b).mp hab with h | ⟨hs, ht⟩
    · exact Or.inl h
    · exact Or.inr ⟨hs.symm, ht.symm⟩
  have hx' :
      Relation.TransGen (fun x y => linkStep E x y ∨ (x = l.source ∧ y = l.target)) x x :=
    Relation.TransGen.mono hmp hx
  have lift : ∀ a b, Relation.ReflTransGen (linkStep E) a b →
      Relation.ReflTransGen
        (fun x y => linkStep E x y ∨ (x = l.source ∧ y = l.target)) a b :=
    fun a b h => Relation.ReflTransGen.mono (fun _ _ hs => Or.inl hs) h
  have habs : ∀ {c : String},
      Relation.ReflTransGen
        (fun x y => linkStep E x y ∨ (x = l.source ∧ y = l.target)) l.target c →
      Relation.ReflTransGen (linkStep E) l.target c ∨
        Relation.ReflTransGen (linkStep E) l.target l.source :=
    fun h => (rtg_split h).imp id And.left
  obtain ⟨y, hxy, hyx⟩ := Relation.TransGen.head'_iff.mp hx'
  rcases hxy with hr | ⟨rfl, rfl⟩
  · rcases rtg_split hyx with h1 | ⟨h1, h2⟩
    · exact hE x (Relation.TransGen.head' hr h1)
    · have hvx :
          Relation.ReflTransGen
            (fun a b => linkStep E a b ∨ (a = l.source ∧ b = l.target))
            l.target l.source := by
        refine h2.trans ?_
        refine Relation.ReflTransGen.trans
          (Relation.ReflTransGen.single (Or.inl hr)) (lift _ _ h1)
      rcases habs hvx with h | h
      · exact hno h
      · exact hno h
  · rcases habs hyx with h | h
    · exact hno h
    · exact hno h

/-- The accept loop keeps its output acyclic as long as the adjacency
covers the accepted edges. -/
theorem acyclicLoop_acyclic :
    ∀ (cands acc : List GraphLink) (adj : Adj),
      (∀ a b, linkStep acc a b → stepAdj adj a b) →
      Acyclic acc →
      Acyclic (acyclicLoop cands acc adj).1 := by
  intro cands
  induction cands with
  | nil =>
      intro acc adj _ hacc
      simpa [acyclicLoop] using hacc
  | cons l rest ih =>
      intro acc adj hsub hacc
      unfold acyclicLoop
      split_ifs with h1 h2 h3 h4
      · exact ih acc adj hsub hacc
      · exact ih acc adj hsub hacc
      · exact ih acc adj hsub hacc
      · exact ih acc adj hsub hacc
      · refine ih (acc ++ [l]) (addEdge adj l.source l.target) ?_ ?_
        · intro a b hab
          rcases (linkStep_append acc l a b).mp hab with h | ⟨hs, ht⟩
          · exact getNeighbors_addEdge_mono adj l.source l.target a b (hsub a b h)
          · subst hs; subst ht
            exact getNeighbors_addEdge_self adj l.source l.target
        · refine acyclic_append hacc ?_
          intro hreach
          apply h4
          apply hasPath_complete
          exact Relation.ReflTransGen.mono (fun a b hab => hsub a b hab) hreach

/-- The accept loop appends to its accumulator a subsequence of the
candidates, all of which pass the endpoint/self-loop guards. -/
theorem acyclicLoop_extension :
    ∀ (cands acc : List GraphLink) (adj : Adj),
      ∃ ex, (acyclicLoop cands acc adj).1 = acc ++ ex ∧
        ex.Sublist cands ∧ ∀ l ∈ ex, linkOk l = true := by
  intro cands
  induction cands with
  | nil =>
      intro acc adj
      exact ⟨[], by simp [acyclicLoop], List.nil_sublist _, by simp⟩
  | cons l rest ih =>
      intro acc adj
      unfold acyclicLoop
      split_ifs with h1 h2 h3 h4
      · obtain ⟨ex, he, hs, hok⟩ := ih acc adj
        exact ⟨ex, he, hs.cons l, hok⟩
      · obtain ⟨ex, he, hs, hok⟩ := ih acc adj
        exact ⟨ex, he, hs.cons l, hok⟩
      · obtain ⟨ex, he, hs, hok⟩ := ih acc adj
        exact ⟨ex, he, hs.cons l, hok⟩
      · obtain ⟨ex, he, hs, hok⟩ := ih acc adj
        exact ⟨ex, he, hs.cons l, hok⟩
      · obtain ⟨ex, he, hs, hok⟩ := ih (acc ++ [l]) (addEdge adj l.source l.target)
        refine ⟨l :: ex, by simpa [List.append_assoc] using he, hs.cons₂ l, ?_⟩
        intro x hx
        rcases List.mem_cons.mp hx with rfl | hx
        · simp [linkOk, h1, h2, h3]
        · exact hok x hx

/-- The skip guards of the accept loop are exactly a `linkOk` filter on
the candidate list. -/
theorem acyclicLoop_eq_acceptLoop :
    ∀ (cands acc : List GraphLink) (adj : Adj),
      (acyclicLoop cands acc adj).1 = acceptLoop (cands.filter linkOk) acc adj := by
  intro cands
  induction cands with
  | nil => intro acc adj; simp [acyclicLoop, acceptLoop]
  | cons l rest ih =>
      intro acc adj
      by_cases hok : linkOk l = true
      · have h1 : ¬ l.source = "" := by
          have := of_decide_eq_true hok
          exact this.1
        have h2 : ¬ l.target = "" := by
          have := of_decide_eq_true hok
          exact this.2.1
        have h3 : ¬ l.source = l.target := by
          have := of_decide_eq_true hok
          exact this.2.2
        rw [List.filter_cons_of_pos hok]
        unfold acyclicLoop acceptLoop
        rw [if_neg h1, if_neg h2, if_neg h3]
        by_cases h4 : hasPath adj l.target l.source = true
        · rw [if_pos h4, if_pos h4]
          exact ih acc adj
        · rw [if_neg h4, if_neg h4]
          exact ih (acc ++ [l]) (addEdge adj l.source l.target)
      · rw [List.filter_cons_of_neg hok]
        have hnot := hok
        unfold linkOk at hnot
        rw [decide_eq_true_eq] at hnot
        push_neg at hnot
        unfold acyclicLoop
        by_cases h1 : l.source = ""
        · rw [if_pos h1]; exact ih acc adj
        · rw [if_neg h1]
          by_cases h2 : l.target = ""
          · rw [if_pos h2]; exact ih acc adj
          · rw [if_neg h2]
            have h3 : l.source = l.target := hnot h1 h2
            rw [if_pos h3]
            exact ih acc adj

theorem insertByValue_perm (x : GraphLink) (l : List GraphLink) :
    (insertByValue x l).Perm (x :: l) := by
  induction l with
  | nil => exact List.Perm.refl _
  | cons y ys ih =>
      unfold insertByValue
      split_ifs
      · exact List.Perm.refl _
      · exact (ih.cons y).trans (List.Perm.swap x y ys)

theorem sortLinks_perm (links : List GraphLink) : (sortLinks links).Perm links := by
  induction links with
  | nil => exact List.Perm.refl _
  | cons l rest ih =>
      unfold sortLinks at ih ⊢
      exact (insertByValue_perm l _).trans (ih.cons l)

theorem scheduleRender_spec (s : AdapterState) (hInv : SchedInv s) :
    (scheduleRender s).pendingFrames = [s.nextFrameId] ∧
    (scheduleRender s).raf = some s.nextFrameId ∧
    (scheduleRender s).nextFrameId = s.nextFrameId + 1 ∧
    (scheduleRender s).renderedWidths = s.renderedWidths ∧
    (scheduleRender s).containerWidth = s.containerWidth ∧
    (scheduleRender s).observing = s.observing := by
  obtain ⟨hraf, _, hlen⟩ := hInv
  unfold scheduleRender
  cases hr : s.raf with
  | none =>
      have hp : s.pendingFrames = [] := by
        cases hp : s.pendingFrames with
        | nil => rfl
        | cons a t =>
            have ha := hraf a (by simp [hp])
            rw [hr] at ha
            cases ha
      simp [hp]
  | some id =>
      have hp : s.pendingFrames.erase id = [] := by
        cases hp : s.pendingFrames with
        | nil => simp
        | cons a t =>
            have ha := hraf a (by simp [hp])
            rw [hr] at ha
            have hid : a = id := by
              injection ha with h
              exact h.symm
            subst hid
            cases t with
            | nil => simp
            | cons b t' =>
                rw [hp] at hlen
                simp at hlen
      simp [hp]

theorem schedInv_scheduleRender (s : AdapterState) (hInv : SchedInv s) :
    SchedInv (scheduleRender s) := by
  obtain ⟨hpend, hraf, hnext, _, _, _⟩ := scheduleRender_spec s hInv
  refine ⟨?_, ?_, ?_⟩
  · intro id hid
    rw [hpend] at hid
    rcases List.mem_singleton.mp hid with rfl
    rw [hraf]
  · intro id hid
    rw [hpend] at hid
    rcases List.mem_singleton.mp hid with rfl
    rw [hnext]
    exact Nat.lt_succ_self _
  · rw [hpend]
    exact Nat.le_refl _

theorem schedInv_setWidth (s : AdapterState) (w : Nat) (hInv : SchedInv s) :
    SchedInv { s with containerWidth := w } := hInv

theorem resizeEvent_spec (s : AdapterState) (w : Nat) (hInv : SchedInv s) :
    SchedInv (resizeEvent s w) ∧
    (resizeEvent s w).pendingFrames = [s.nextFrameId] ∧
    (resizeEvent s w).raf = some s.nextFrameId ∧
    (resizeEvent s w).containerWidth = w ∧
    (resizeEvent s w).renderedWidths = s.renderedWidths := by
  have hInv' := schedInv_setWidth s w hInv
  obtain ⟨hpend, hraf, _, hrw, hcw, _⟩ := scheduleRender_spec _ hInv'
  unfold resizeEvent
  dsimp only at hpend hraf hrw hcw
  exact ⟨schedInv_scheduleRender _ hInv', hpend, hraf, hcw, hrw⟩

theorem burst_foldl (ws : List Nat) :
    ∀ s : AdapterState, SchedInv s →
      SchedInv (ws.foldl resizeEvent s) ∧
      (ws.foldl resizeEvent s).renderedWidths = s.renderedWidths := by
  induction ws with
  | nil => intro s hInv; exact ⟨hInv, rfl⟩
  | cons w rest ih =>
      intro s hInv
      obtain ⟨hInv', _, _, _, hrw⟩ := resizeEvent_spec s w hInv
      obtain ⟨hInv'', hrw'⟩ := ih (resizeEvent s w) hInv'
      exact ⟨hInv'', by rw [List.foldl_cons, hrw', hrw]⟩

end SankeyChart

open SankeyChart CustomerNetworkPanel

/-- C1: for every input edge list and every budget `K`, the edge set
produced by the sanitizer contains no directed cycle: a candidate edge
is accepted only when its target cannot reach its source through the
already-accepted edges, so a cycle-detection pass over
`(sankeyData nodes links K).2` finds zero cycles. -/
theorem sanitize_acyclic (nodes : List GraphNode) (links : List GraphLink) (K : Nat) :
    Acyclic (sankeyData nodes links K).2 := by
  have h0 : ∀ a b, linkStep ([] : List GraphLink) a b → stepAdj [] a b := by
    rintro a b ⟨l, hl, _⟩
    cases hl
  have hacy : Acyclic ([] : List GraphLink) := by
    intro x hx
    obtain ⟨y, hxy, _⟩ := Relation.TransGen.head'_iff.mp hx
    obtain ⟨l, hl, _⟩ := hxy
    cases hl
  exact acyclicLoop_acyclic (candidateLinks links K) [] [] h0 hacy

/-- C2 (amended): the candidate set the sanitizer subjects to cycle
checking is the first `K` edges of the stable value-descending sort of
the raw input with self-loops and empty-endpoint edges discarded only
AFTERWARDS (truncation happens before the discard, so a discarded edge
can use up a budget slot); no edge beyond the first `K` of the sorted
input ever appears in the output. -/
theorem sanitize_candidate_set (nodes : List GraphNode) (links : List GraphLink) (K : Nat) :
    (sankeyData nodes links K).2 = acceptLoop ((candidateLinks links K).filter linkOk) [] [] ∧
    (sankeyData nodes links K).2.Sublist (candidateLinks links K) := by
  constructor
  · exact acyclicLoop_eq_acceptLoop (candidateLinks links K) [] []
  · obtain ⟨ex, he, hsub, _⟩ := acyclicLoop_extension (candidateLinks links K) [] []
    have hout : (sankeyData nodes links K).2 = ex := by
      show (acyclicLoop (candidateLinks links K) [] []).1 = ex
      rw [he]
      exact List.nil_append ex
    rw [hout]
    exact hsub

/-- C2 counterexample: with budget 1 and input
`[(A,A,10), (A,B,5)]`, the code's cycle-check candidate set is empty
(the self-loop claimed the only budget slot before being discarded),
while the candidate set claimed by the spec — discard first, then sort
and truncate — is `[(A,B,5)]`; accepting `A→B` would create no cycle,
yet the output is empty. -/
theorem sanitize_candidate_set_cex :
    (candidateLinks [⟨"A", "A", 10⟩, ⟨"A", "B", 5⟩] 1).filter linkOk = [] ∧
    specCandidateLinks [⟨"A", "A", 10⟩, ⟨"A", "B", 5⟩] 1 = [⟨"A", "B", 5⟩] ∧
    (sankeyData [⟨"A", "a", 0⟩, ⟨"B", "b", 0⟩] [⟨"A", "A", 10⟩, ⟨"A", "B", 5⟩] 1).2 = [] := by
  decide

/-- C3 (amended): every node of the sanitizer's output is
unconditionally an endpoint of some output edge, and — provided every
endpoint of every input edge is the id of some input node — every
endpoint of every output edge is the id of some output node.  (The
proviso on the second direction is necessary: the code never
synthesizes nodes for dangling edge endpoints.) -/
theorem sanitize_node_consistency (nodes : List GraphNode) (links : List GraphLink) (K : Nat) :
    (∀ n ∈ (sankeyData nodes links K).1,
        ∃ l ∈ (sankeyData nodes links K).2, n.id = l.source ∨ n.id = l.target) ∧
    ((∀ l ∈ links,
        (∃ n ∈ nodes, n.id = l.source) ∧ (∃ n ∈ nodes, n.id = l.target)) →
      ∀ l ∈ (sankeyData nodes links K).2,
        (∃ n ∈ (sankeyData nodes links K).1, n.id = l.source) ∧
        (∃ n ∈ (sankeyData nodes links K).1, n.id = l.target)) := by
  obtain ⟨ex, he, hsub, _⟩ := acyclicLoop_extension (candidateLinks links K) [] []
  have houtl : (sankeyData nodes links K).2 = ex := by
    show (acyclicLoop (candidateLinks links K) [] []).1 = ex
    rw [he]
    exact List.nil_append ex
  have hmem_links : ∀ l ∈ (sankeyData nodes links K).2, l ∈ links := by
    intro l hl
    rw [houtl] at hl
    have h1 : l ∈ candidateLinks links K := hsub.mem hl
    have h2 : l ∈ sortLinks links := (List.take_sublist _ _).mem h1
    exact (sortLinks_perm links).mem_iff.mp h2
  have hnodes : (sankeyData nodes links K).1 =
      nodes.filter (fun node =>
        ((sankeyData nodes links K).2.flatMap (fun l => [l.source, l.target])).contains
          node.id) := rfl
  constructor
  · intro n hn
    rw [hnodes] at hn
    obtain ⟨-, hc⟩ := List.mem_filter.mp hn
    have hid : n.id ∈ (sankeyData nodes links K).2.flatMap (fun l => [l.source, l.target]) := by
      simpa using hc
    obtain ⟨l, hl, hend⟩ := List.mem_flatMap.mp hid
    refine ⟨l, hl, ?_⟩
    simpa using hend
  · intro hdangle l hl
    have hlinks := hmem_links l hl
    obtain ⟨⟨ns, hns, hnsid⟩, ⟨nt, hnt, hntid⟩⟩ := hdangle l hlinks
    have hsrc : l.source ∈ (sankeyData nodes links K).2.flatMap
        (fun l => [l.source, l.target]) :=
      List.mem_flatMap.mpr ⟨l, hl, by simp⟩
    have htgt : l.target ∈ (sankeyData nodes links K).2.flatMap
        (fun l => [l.source, l.target]) :=
      List.mem_flatMap.mpr ⟨l, hl, by simp⟩
    constructor
    · refine ⟨ns, ?_, hnsid⟩
      rw [hnodes]
      refine List.mem_filter.mpr ⟨hns, ?_⟩
      simp [hnsid]
      exact ⟨l, hl, Or.inl rfl⟩
    · refine ⟨nt, ?_, hntid⟩
      rw [hnodes]
      refine List.mem_filter.mpr ⟨hnt, ?_⟩
      simp [hntid]
      exact ⟨l, hl, Or.inr rfl⟩

/-- C3 counterexample: a dangling edge endpoint (input node list empty)
survives into the output edges while the output node list stays empty,
so an output edge endpoint is not the id of any output node. -/
theorem sanitize_node_consistency_cex :
    (sankeyData [] [⟨"A", "B", 1⟩] 10).2 = [⟨"A", "B", 1⟩] ∧
    (sankeyData [] [⟨"A", "B", 1⟩] 10).1 = [] := by
  decide

/-- C3 witness: concrete run of the amended node-consistency theorem. -/
theorem sanitize_node_consistency_witness :
    (∀ l ∈ [(⟨"A", "B", 2⟩ : GraphLink)],
      (∃ n ∈ [(⟨"A", "a", 0⟩ : GraphNode), ⟨"B", "b", 0⟩], n.id = l.source) ∧
      (∃ n ∈ [(⟨"A", "a", 0⟩ : GraphNode), ⟨"B", "b", 0⟩], n.id = l.target)) ∧
    ((∀ n ∈ (sankeyData [⟨"A", "a", 0⟩, ⟨"B", "b", 0⟩] [⟨"A", "B", 2⟩] 5).1,
        ∃ l ∈ (sankeyData [⟨"A", "a", 0⟩, ⟨"B", "b", 0⟩] [⟨"A", "B", 2⟩] 5).2,
          n.id = l.source ∨ n.id = l.target) ∧
      (∀ l ∈ (sankeyData [⟨"A", "a", 0⟩, ⟨"B", "b", 0⟩] [⟨"A", "B", 2⟩] 5).2,
        (∃ n ∈ (sankeyData [⟨"A", "a", 0⟩, ⟨"B", "b", 0⟩] [⟨"A", "B", 2⟩] 5).1,
          n.id = l.source) ∧
        (∃ n ∈ (sankeyData [⟨"A", "a", 0⟩, ⟨"B", "b", 0⟩] [⟨"A", "B", 2⟩] 5).1,
          n.id = l.target))) :=
  ⟨by decide,
   (sanitize_node_consistency [⟨"A", "a", 0⟩, ⟨"B", "b", 0⟩] [⟨"A", "B", 2⟩] 5).1,
   (sanitize_node_consistency [⟨"A", "a", 0⟩, ⟨"B", "b", 0⟩] [⟨"A", "B", 2⟩] 5).2 (by decide)⟩

/-- C4: the output respects the budget and the self-loop bound —
`|links| ≤ min K (number of non-self-loop inputs)` — and no self-loop
ever appears in the output. -/
theorem sanitize_budget (nodes : List GraphNode) (links : List GraphLink) (K : Nat) :
    (sankeyData nodes links K).2.length
        ≤ min K (links.countP (fun l => decide (l.source ≠ l.target))) ∧
    ∀ l ∈ (sankeyData nodes links K).2, l.source ≠ l.target := by
  obtain ⟨ex, he, hsub, hok⟩ := acyclicLoop_extension (candidateLinks links K) [] []
  have hout : (sankeyData nodes links K).2 = ex := by
    show (acyclicLoop (candidateLinks links K) [] []).1 = ex
    rw [he]
    exact List.nil_append ex
  have hnoself : ∀ l ∈ ex, l.source ≠ l.target := by
    intro l hl
    have h := hok l hl
    unfold linkOk at h
    rw [decide_eq_true_eq] at h
    exact h.2.2
  constructor
  · rw [hout]
    refine le_min ?_ ?_
    · calc ex.length ≤ (candidateLinks links K).length := hsub.length_le
        _ ≤ K := by
          unfold candidateLinks
          rw [List.length_take]
          exact min_le_left _ _
    · have hpex : ∀ l ∈ ex, (fun l : GraphLink => decide (l.source ≠ l.target)) l = true := by
        intro l hl
        rw [decide_eq_true_eq]
        exact hnoself l hl
      have h1 : ex.filter (fun l : GraphLink => decide (l.source ≠ l.target)) = ex :=
        List.filter_eq_self.mpr hpex
      have h2 : (ex.filter (fun l : GraphLink => decide (l.source ≠ l.target))).Sublist
          ((sortLinks links).filter (fun l : GraphLink => decide (l.source ≠ l.target))) :=
        List.Sublist.filter _ (hsub.trans (List.take_sublist _ _))
      have h3 := h2.length_le
      rw [h1] at h3
      calc ex.length
          ≤ ((sortLinks links).filter (fun l : GraphLink =>
              decide (l.source ≠ l.target))).length := h3
        _ = (sortLinks links).countP (fun l : GraphLink => decide (l.source ≠ l.target)) :=
            (List.countP_eq_length_filter _ _).symm
        _ = links.countP (fun l : GraphLink => decide (l.source ≠ l.target)) :=
            (sortLinks_perm links).countP_eq _
  · intro l hl
    rw [hout] at hl
    exact hnoself l hl

/-- C5: the concrete scenario — edges `[(A,B,10), (B,C,8), (C,A,5),
(A,C,3)]`, budget 10 — is processed in value order; `A→B` and `B→C`
pass the reachability check, `C→A` fails it (A already reaches C), and
`A→C` passes; the result is exactly edges `{A→B, B→C, A→C}` and nodes
`{A, B, C}`. -/
theorem sanitize_concrete_scenario :
    candidateLinks [⟨"A", "B", 10⟩, ⟨"B", "C", 8⟩, ⟨"C", "A", 5⟩, ⟨"A", "C", 3⟩] 10
      = [⟨"A", "B", 10⟩, ⟨"B", "C", 8⟩, ⟨"C", "A", 5⟩, ⟨"A", "C", 3⟩] ∧
    hasPath [] "B" "A" = false ∧
    hasPath [("A", ["B"])] "C" "B" = false ∧
    hasPath [("A", ["B"]), ("B", ["C"])] "A" "C" = true ∧
    hasPath [("A", ["B"]), ("B", ["C"])] "C" "A" = false ∧
    sankeyData [⟨"A", "A", 0⟩, ⟨"B", "B", 0⟩, ⟨"C", "C", 0⟩]
        [⟨"A", "B", 10⟩, ⟨"B", "C", 8⟩, ⟨"C", "A", 5⟩, ⟨"A", "C", 3⟩] 10
      = ([⟨"A", "A", 0⟩, ⟨"B", "B", 0⟩, ⟨"C", "C", 0⟩],
         [⟨"A", "B", 10⟩, ⟨"B", "C", 8⟩, ⟨"A", "C", 3⟩]) := by
  decide

/-- C6: the identity-coloring functions of the two adapters agree on
every string, and the common value is an `hsl` color whose hue lies in
`0..359` with fixed saturation and lightness. -/
theorem colorFromId_agree (id : String) :
    NetworkGraph.colorFromId id = SankeyChart.colorFromId id ∧
    ∃ hue : Nat, hue < 360 ∧
      SankeyChart.colorFromId id = "hsl(" ++ toString hue ++ ", 80%, 60%)" :=
  ⟨rfl,
   (id.data.foldl (fun h c => SankeyChart.hashStep h c.toNat) 0).natAbs % 360,
   Nat.mod_lt _ (by norm_num), rfl⟩

/-- C7: a graph fetch clears the error field at request start, and on
failure sets it to a user-facing message (the thrown message, or the
fallback when that is empty) while leaving the stored graph untouched;
with no previous graph the no-data state (`hasGraph = false`) shows. -/
theorem fetchGraph_error_path (s : ViewState) (h : s.selectedSegment ≠ "") (msg : String) :
    (fetchGraphStart s).1.error = none ∧
    (fetchGraphStart s).1.loading = true ∧
    (fetchGraphStart s).1.graph = s.graph ∧
    (fetchGraphResolve (fetchGraphStart s).1 (FetchOutcome.fail msg)).graph = s.graph ∧
    (fetchGraphResolve (fetchGraphStart s).1 (FetchOutcome.fail msg)).error =
      some (if msg = "" then fetchErrorFallback else msg) ∧
    (fetchGraphResolve (fetchGraphStart s).1 (FetchOutcome.fail msg)).loading = false ∧
    (s.graph = none →
      hasGraph (fetchGraphResolve (fetchGraphStart s).1 (FetchOutcome.fail msg)) = false) := by
  unfold fetchGraphStart fetchGraphResolve
  rw [if_neg h]
  refine ⟨rfl, rfl, rfl, rfl, rfl, rfl, ?_⟩
  intro hg
  unfold hasGraph
  simp [hg]

/-- C7 witness: concrete failing fetch over a state with a selected
segment and no stored graph. -/
theorem fetchGraph_error_path_witness :
    ((⟨[], "vip", none, 25, 3, false, ChartView.network, none, none⟩ :
        ViewState).selectedSegment ≠ "") ∧
    ((fetchGraphStart ⟨[], "vip", none, 25, 3, false, ChartView.network, none, none⟩).1.error
        = none ∧
      (fetchGraphStart ⟨[], "vip", none, 25, 3, false, ChartView.network, none, none⟩).1.loading
        = true ∧
      (fetchGraphStart ⟨[], "vip", none, 25, 3, false, ChartView.network, none, none⟩).1.graph
        = (⟨[], "vip", none, 25, 3, false, ChartView.network, none, none⟩ : ViewState).graph ∧
      (fetchGraphResolve
          (fetchGraphStart ⟨[], "vip", none, 25, 3, false, ChartView.network, none, none⟩).1
          (FetchOutcome.fail "")).graph
        = (⟨[], "vip", none, 25, 3, false, ChartView.network, none, none⟩ : ViewState).graph ∧
      (fetchGraphResolve
          (fetchGraphStart ⟨[], "vip", none, 25, 3, false, ChartView.network, none, none⟩).1
          (FetchOutcome.fail "")).error
        = some (if "" = "" then fetchErrorFallback else "") ∧
      (fetchGraphResolve
          (fetchGraphStart ⟨[], "vip", none, 25, 3, false, ChartView.network, none, none⟩).1
          (FetchOutcome.fail "")).loading = false ∧
      ((⟨[], "vip", none, 25, 3, false, ChartView.network, none, none⟩ : ViewState).graph = none →
        hasGraph (fetchGraphResolve
          (fetchGraphStart ⟨[], "vip", none, 25, 3, false, ChartView.network, none, none⟩).1
          (FetchOutcome.fail "")) = false)) :=
  ⟨by decide, fetchGraph_error_path _ (by decide) ""⟩

/-- C8: any burst of resize events before the next rendering tick leaves
exactly one pending re-render request, the tick performs exactly one
layout recomputation using the last known width, and teardown cancels
the pending request and disconnects the observer. -/
theorem scheduler_coalesces (s : AdapterState) (ws : List Nat) (w : Nat)
    (hInv : SchedInv s) :
    (animationTick ((ws ++ [w]).foldl resizeEvent s)).renderedWidths
      = s.renderedWidths ++ [w] ∧
    ((ws ++ [w]).foldl resizeEvent s).pendingFrames.length = 1 ∧
    (onBeforeUnmountEvent ((ws ++ [w]).foldl resizeEvent s)).pendingFrames = [] ∧
    (onBeforeUnmountEvent ((ws ++ [w]).foldl resizeEvent s)).observing = false := by
  have hfold : (ws ++ [w]).foldl resizeEvent s = resizeEvent (ws.foldl resizeEvent s) w := by
    rw [List.foldl_append]
    rfl
  obtain ⟨hInv1, hrw1⟩ := burst_foldl ws s hInv
  obtain ⟨_, hpend, hraf, hwidth, hrw2⟩ := resizeEvent_spec (ws.foldl resizeEvent s) w hInv1
  rw [hfold]
  refine ⟨?_, ?_, ?_, ?_⟩
  · unfold animationTick
    simp [hpend, hwidth, hrw2, hrw1]
  · rw [hpend]
    rfl
  · unfold onBeforeUnmountEvent
    simp [hraf, hpend]
  · unfold onBeforeUnmountEvent
    simp [hraf]

/-- C8 witness: seed state with no pending frame, one resize event. -/
theorem scheduler_coalesces_witness :
    SchedInv ⟨none, 0, [], true, 0, []⟩ ∧
    ((animationTick (([] ++ [800]).foldl resizeEvent ⟨none, 0, [], true, 0, []⟩)).renderedWidths
        = ([] : List Nat) ++ [800] ∧
      (([] ++ [800]).foldl resizeEvent
        (⟨none, 0, [], true, 0, []⟩ : AdapterState)).pendingFrames.length = 1 ∧
      (onBeforeUnmountEvent
        (([] ++ [800]).foldl resizeEvent ⟨none, 0, [], true, 0, []⟩)).pendingFrames = [] ∧
      (onBeforeUnmountEvent
        (([] ++ [800]).foldl resizeEvent ⟨none, 0, [], true, 0, []⟩)).observing = false) :=
  have hInv : SchedInv ⟨none, 0, [], true, 0, []⟩ := by
    unfold SchedInv
    refine ⟨?_, ?_, ?_⟩
    · intro id h
      cases h
    · intro id h
      cases h
    · simp
  ⟨hInv, scheduler_coalesces _ [] 800 hInv⟩

/-- C9: toggling the active view is a pure state change: no request is
issued and every state field other than the view itself is unchanged. -/
theorem view_toggle_pure (s : ViewState) (v : ChartView) :
    (setChartView s v).2 = [] ∧
    (setChartView s v).1.chartView = v ∧
    (setChartView s v).1.graph = s.graph ∧
    (setChartView s v).1.segments = s.segments ∧
    (setChartView s v).1.selectedSegment = s.selectedSegment ∧
    (setChartView s v).1.dateRange = s.dateRange ∧
    (setChartView s v).1.limit = s.limit ∧
    (setChartView s v).1.minEdge = s.minEdge ∧
    (setChartView s v).1.loading = s.loading ∧
    (setChartView s v).1.error = s.error :=
  ⟨rfl, rfl, rfl, rfl, rfl, rfl, rfl, rfl, rfl, rfl⟩

/-- C10: with no segment selected, the graph fetch is a complete no-op:
no request is issued and the state is returned unchanged. -/
theorem fetchGraph_no_segment_noop (s : ViewState) (h : s.selectedSegment = "") :
    fetchGraphStart s = (s, []) := by
  unfold fetchGraphStart
  rw [if_pos h]

/-- C10 witness: concrete state with the empty segment. -/
theorem fetchGraph_no_segment_noop_witness :
    ((⟨[], "", none, 25, 3, false, ChartView.network, none, none⟩ :
        ViewState).selectedSegment = "") ∧
    fetchGraphStart ⟨[], "", none, 25, 3, false, ChartView.network, none, none⟩
      = (⟨[], "", none, 25, 3, false, ChartView.network, none, none⟩, []) :=
  ⟨rfl, fetchGraph_no_segment_noop _ rfl⟩

